import Mathlib

/-!
Verification of the outline classifier of `extractor/pdf_outline_extractor.py`.

The classifier consumes per-page lists of line observations
`(text, page, size, bold)` and produces `{title, outline}`.  Font sizes are
modelled as rationals: the classifier only compares sizes for equality and
order, never does arithmetic on them, so any concrete float value is
represented faithfully.  Text is modelled as `String` over its character
list; the two regular expressions of the source are modelled as the
deterministic character scans they denote (their character classes are
disjoint at every decision point, so the greedy match never backtracks).
-/

/-- Python's `\s` class, restricted to the ASCII whitespace characters. -/
def isSpaceChar (c : Char) : Bool :=
  c == ' ' || c == '\t' || c == '\n' || c == '\r' || c == '\x0b' || c == '\x0c'

/-- One line observation: `(line_text, page_num + 1, avg_size, bold)`. -/
structure Obs where
  text : String
  page : Int
  size : ℚ
  bold : Bool
  deriving DecidableEq, Repr

/-- One output heading dict `{"level": f"H{level}", "text": clean, "page": page}`. -/
structure Heading where
  level : String
  text : String
  page : Int
  deriving DecidableEq, Repr

/-- The result record `{"title": ..., "outline": [...]}`. -/
structure OutlineR where
  title : String
  outline : List Heading
  deriving DecidableEq, Repr

/-- Model of `re.sub(r"\s+", " ", text)`: collapse every whitespace run to one space.
The boolean argument records whether the previous character was whitespace
(so the current run has already emitted its single space). -/
def collapseWS : Bool → List Char → List Char
  | _, [] => []
  | inRun, c :: cs =>
    if isSpaceChar c then
      if inRun then collapseWS true cs else ' ' :: collapseWS true cs
    else
      c :: collapseWS false cs

/-- Right-strip: drop the maximal all-whitespace suffix. -/
def dropTrailingWS : List Char → List Char
  | [] => []
  | c :: cs =>
    let r := dropTrailingWS cs
    if r.isEmpty then (if isSpaceChar c then [] else [c]) else c :: r

/-- Model of `_clean_text` on character lists: collapse whitespace runs, then `.strip()`. -/
def clean_list (l : List Char) : List Char :=
  dropTrailingWS ((collapseWS false l).dropWhile isSpaceChar)

/-- Model of `_clean_text(text)` = `re.sub(r"\s+", " ", text).strip()`. -/
def clean_text (s : String) : String :=
  String.mk (clean_list s.data)

mutual
/-- Scanner for `^(\d+(?:\.\d+)*)\s+` while inside a digit run (at least one
digit of the current run already consumed); `n` counts the dots seen so far.
Returns the dot count when the pattern (including the trailing whitespace)
matches, `none` otherwise. -/
def scanNum : List Char → Nat → Option Nat
  | [], _ => none
  | c :: cs, n =>
    if c.isDigit then scanNum cs n
    else if isSpaceChar c then some n
    else if c = '.' then scanDot cs n
    else none

/-- Scanner state just after a dot: the next character must be a digit. -/
def scanDot : List Char → Nat → Option Nat
  | [], _ => none
  | c :: cs, n => if c.isDigit then scanNum cs (n + 1) else none
end

/-- Value `num_level` of the source: `m.group(1).count(".") + 1` when
`heading_pattern.match(text)` succeeds, else `0`. -/
def headingNumLevel (s : String) : Nat :=
  match s.data with
  | [] => 0
  | c :: cs =>
    if c.isDigit then
      match scanNum cs 0 with
      | some n => n + 1
      | none => 0
    else 0

/-- Python `str.isupper()` (ASCII): at least one cased character and no
lowercase cased character. -/
def pyIsUpper (s : String) : Bool :=
  s.data.any (fun c => c.isAlpha) && s.data.all (fun c => !c.isAlpha || c.isUpper)

/-- Word counter for `len(text.split())`: counts maximal non-whitespace runs;
the boolean records whether the scan is currently inside a word. -/
def countWords : Bool → List Char → Nat
  | _, [] => 0
  | inW, c :: cs =>
    if isSpaceChar c then countWords false cs
    else (if inW then 0 else 1) + countWords true cs

/-- Model of `len(text.split())`. -/
def wordCount (s : String) : Nat :=
  countWords false s.data

/-- Model of `re.fullmatch(r"\d{1,2}\s+[A-Z]{3,}\s+\d{2,4}", text)` as the run-length
conditions it denotes (adjacent classes are disjoint, so matching is
deterministic). -/
def dateLike (s : String) : Bool :=
  let l := s.data
  let d1 := l.takeWhile Char.isDigit
  let r1 := l.dropWhile Char.isDigit
  let w1 := r1.takeWhile isSpaceChar
  let r2 := r1.dropWhile isSpaceChar
  let u := r2.takeWhile Char.isUpper
  let r3 := r2.dropWhile Char.isUpper
  let w2 := r3.takeWhile isSpaceChar
  let r4 := r3.dropWhile isSpaceChar
  decide (1 ≤ d1.length) && decide (d1.length ≤ 2) &&
  decide (1 ≤ w1.length) && decide (3 ≤ u.length) && decide (1 ≤ w2.length) &&
  r4.all Char.isDigit && decide (2 ≤ r4.length) && decide (r4.length ≤ 4)

/-- Model of `_is_valid_heading(text)`. -/
def is_valid_heading (text : String) : Bool :=
  if dateLike text then false
  else if !text.data.isEmpty && text.data.all Char.isDigit then false
  else text.data.any (fun c => c.isAlpha)

/-- Model of `_size_to_level(size, level_sizes)`: `level_sizes.index(size)`, or `-1`
when the size is absent (`ValueError`). -/
def size_to_level (size : ℚ) : List ℚ → Int
  | [] => -1
  | s :: rest =>
    if s = size then 0
    else
      let r := size_to_level size rest
      if r = -1 then -1 else r + 1

/-- Model of `unique_sizes = sorted(size_to_lines.keys(), reverse=True)`: the distinct
observed sizes, sorted descending. -/
def unique_sizes (flattened : List Obs) : List ℚ :=
  List.insertionSort (· ≥ ·) ((flattened.map Obs.size).dedup)

/-- Model of `level_sizes = unique_sizes[: self.heading_levels + 1]`. -/
def level_sizes_of (hl : Nat) (flattened : List Obs) : List ℚ :=
  (unique_sizes flattened).take (hl + 1)

/-- The resolved level of one observation: the font-size level, overridden by
the numeric-prefix level when that is within `[1, heading_levels]`. -/
def resolvedLevel (hl : Nat) (ls : List ℚ) (o : Obs) : Int :=
  if 1 ≤ headingNumLevel o.text ∧ headingNumLevel o.text ≤ hl then
    (headingNumLevel o.text : Int)
  else size_to_level o.size ls

/-- One iteration of the classification loop, acting on the accumulator
`(headings, title_candidate)`. -/
def classifyStep (hl : Nat) (ls : List ℚ) (acc : List Heading × String) (o : Obs) :
    List Heading × String :=
  let level := resolvedLevel hl ls o
  if level = 0 then
    if o.page ≤ 1 ∧ (o.bold ∨ pyIsUpper o.text ∨ wordCount o.text < 15) then
      (acc.1, if acc.2 = "" then o.text else acc.2)
    else acc
  else if 1 ≤ level ∧ level ≤ (hl : Int) then
    let cleaned := clean_text o.text
    if is_valid_heading cleaned then
      (acc.1 ++ [⟨s!"H{level}", cleaned, o.page⟩], acc.2)
    else acc
  else acc

/-- The title-candidate acceptance test of the `level == 0` branch, as a
boolean predicate on one observation. -/
def titleAcceptB (hl : Nat) (ls : List ℚ) (o : Obs) : Bool :=
  (resolvedLevel hl ls o == 0) && decide (o.page ≤ 1) &&
    (o.bold || pyIsUpper o.text || decide (wordCount o.text < 15))

/-- The title-candidate component of one loop iteration. -/
def candStep (hl : Nat) (ls : List ℚ) (c : String) (o : Obs) : String :=
  if resolvedLevel hl ls o = 0 then
    if o.page ≤ 1 ∧ (o.bold ∨ pyIsUpper o.text ∨ wordCount o.text < 15) then
      if c = "" then o.text else c
    else c
  else c

/-- The largest-font fallback: `large_candidates[0] if large_candidates else ""`
when the candidate is still empty. -/
def finalTitle (level_sizes : List ℚ) (flattened : List Obs) (cand : String) : String :=
  if cand = "" then
    match flattened.find? (fun o => o.size == level_sizes.headD 0) with
    | some o => o.text
    | none => ""
  else cand

/-- The deduplication loop: `last` is the previously scanned heading (`None`
before the first iteration); a heading equal to it is dropped. -/
def dedupHeadings : List Heading → Option Heading → List Heading
  | [], _ => []
  | h :: hs, last =>
    if some h = last then dedupHeadings hs (some h)
    else h :: dedupHeadings hs (some h)

/-- Model of `_process_segments(pages_data)`. -/
def process_segments (hl : Nat) (pages_data : List (List Obs)) : OutlineR :=
  let flattened := pages_data.flatten
  if flattened = [] then ⟨"", []⟩
  else
    let level_sizes := level_sizes_of hl flattened
    let res := flattened.foldl (classifyStep hl level_sizes) ([], "")
    ⟨clean_text (finalTitle level_sizes flattened res.2), dedupHeadings res.1 none⟩

/-! ### The title-candidate component of the classification fold -/

theorem classifyStep_snd (hl : Nat) (ls : List ℚ) (acc : List Heading × String) (o : Obs) :
    (classifyStep hl ls acc o).2 = candStep hl ls acc.2 o := by
  simp only [classifyStep, candStep]
  split
  · split
    · rfl
    · rfl
  · split
    · split
      · rfl
      · rfl
    · rfl

theorem foldl_classifyStep_snd (hl : Nat) (ls : List ℚ) :
    ∀ (l : List Obs) (acc : List Heading × String),
      (l.foldl (classifyStep hl ls) acc).2 = l.foldl (candStep hl ls) acc.2 := by
  intro l
  induction l with
  | nil => intro acc; rfl
  | cons o l ih =>
    intro acc
    simp only [List.foldl_cons, ih, classifyStep_snd]

theorem titleAcceptB_iff (hl : Nat) (ls : List ℚ) (o : Obs) :
    titleAcceptB hl ls o = true ↔
      (resolvedLevel hl ls o = 0 ∧ o.page ≤ 1 ∧
        (o.bold ∨ pyIsUpper o.text ∨ wordCount o.text < 15)) := by
  simp [titleAcceptB, and_assoc, or_assoc]

theorem candStep_of_not_accept (hl : Nat) (ls : List ℚ) (c : String) (o : Obs)
    (h : titleAcceptB hl ls o = false) : candStep hl ls c o = c := by
  rw [candStep]
  split
  · split
    · rename_i h0 hcond
      exact absurd ((titleAcceptB_iff hl ls o).mpr ⟨h0, hcond⟩) (by simp [h])
    · rfl
  · rfl

theorem candStep_of_accept (hl : Nat) (ls : List ℚ) (c : String) (o : Obs)
    (h : titleAcceptB hl ls o = true) :
    candStep hl ls c o = if c = "" then o.text else c := by
  rcases (titleAcceptB_iff hl ls o).mp h with ⟨h0, hcond⟩
  rw [candStep, if_pos h0, if_pos hcond]

theorem foldl_candStep_of_ne (hl : Nat) (ls : List ℚ) :
    ∀ (l : List Obs) (c : String), c ≠ "" → l.foldl (candStep hl ls) c = c := by
  intro l
  induction l with
  | nil => intro c _; rfl
  | cons o l ih =>
    intro c hc
    have hstep : candStep hl ls c o = c := by
      simp [candStep, hc]
    simp only [List.foldl_cons, hstep, ih c hc]

theorem foldl_candStep_empty (hl : Nat) (ls : List ℚ) :
    ∀ l : List Obs,
      l.foldl (candStep hl ls) "" =
        (match l.find? (fun o => titleAcceptB hl ls o && !(o.text == "")) with
          | some o => o.text
          | none => "") := by
  intro l
  induction l with
  | nil => rfl
  | cons o l ih =>
    simp only [List.foldl_cons]
    cases hacc : titleAcceptB hl ls o with
    | false =>
      rw [candStep_of_not_accept hl ls _ o hacc, ih, List.find?]
      simp [hacc]
    | true =>
      rw [candStep_of_accept hl ls _ o hacc, if_pos rfl]
      by_cases htext : o.text = ""
      · have hb : (o.text == "") = true := beq_iff_eq.mpr htext
        rw [htext, ih, List.find?]
        simp [hacc, hb, htext]
      · have hb : (o.text == "") = false := by
          simp [htext]
        rw [foldl_candStep_of_ne hl ls l o.text htext, List.find?]
        simp [hacc, hb]

/-! ### `_size_to_level` versus the first-index function -/

theorem size_to_level_eq_indexOf :
    ∀ (ls : List ℚ) (size : ℚ),
      size_to_level size ls = if size ∈ ls then (ls.indexOf size : Int) else -1 := by
  intro ls
  induction ls with
  | nil => intro size; simp [size_to_level]
  | cons s rest ih =>
    intro size
    by_cases hs : s = size
    · subst hs
      simp [size_to_level, List.indexOf_cons_self]
    · rw [size_to_level, if_neg hs, ih size]
      by_cases hmem : size ∈ rest
      · have hidx : (rest.indexOf size : Int) ≠ -1 := by
          omega
        rw [if_pos hmem, if_neg hidx, if_pos (List.mem_cons_of_mem s hmem),
          List.indexOf_cons_ne rest hs]
        push_cast
        ring
      · have hmem' : size ∉ s :: rest := by
          intro hin
          rcases List.mem_cons.mp hin with h | h
          · exact hs h.symm
          · exact hmem h
        rw [if_neg hmem, if_pos rfl, if_neg hmem']

/-! ### Properties of the size table -/

theorem unique_sizes_sorted (fl : List Obs) :
    List.Sorted (· ≥ ·) (unique_sizes fl) :=
  List.sorted_insertionSort (· ≥ ·) _

theorem unique_sizes_nodup (fl : List Obs) : (unique_sizes fl).Nodup :=
  (List.perm_insertionSort (· ≥ ·) _).symm.nodup (List.nodup_dedup _)

theorem unique_sizes_mem (fl : List Obs) (s : ℚ) :
    s ∈ unique_sizes fl ↔ s ∈ fl.map Obs.size := by
  rw [unique_sizes]
  rw [(List.perm_insertionSort (· ≥ ·) ((fl.map Obs.size).dedup)).mem_iff]
  exact List.mem_dedup

theorem unique_sizes_pairwise_gt (fl : List Obs) :
    List.Pairwise (· > ·) (unique_sizes fl) := by
  have h := ((unique_sizes_sorted fl).and (unique_sizes_nodup fl))
  exact h.imp (fun hab => lt_of_le_of_ne hab.1 hab.2.symm)

theorem level_sizes_pairwise_gt (hl : Nat) (fl : List Obs) :
    List.Pairwise (· > ·) (level_sizes_of hl fl) :=
  (unique_sizes_pairwise_gt fl).sublist (List.take_sublist _ _)

theorem level_sizes_length_le (hl : Nat) (fl : List Obs) :
    (level_sizes_of hl fl).length ≤ hl + 1 := by
  rw [level_sizes_of, List.length_take]
  exact min_le_left _ _

theorem level_sizes_subset_sizes (hl : Nat) (fl : List Obs) (s : ℚ) :
    s ∈ level_sizes_of hl fl → s ∈ fl.map Obs.size := by
  intro hmem
  exact (unique_sizes_mem fl s).mp ((List.take_sublist _ _).subset hmem)

theorem unique_sizes_head_max (fl : List Obs) (s : ℚ) (hs : s ∈ fl.map Obs.size) :
    s ≤ (unique_sizes fl).headD 0 := by
  have hmem : s ∈ unique_sizes fl := (unique_sizes_mem fl s).mpr hs
  rcases hu : unique_sizes fl with _ | ⟨a, rest⟩
  · rw [hu] at hmem
    exact absurd hmem (List.not_mem_nil s)
  · rw [hu] at hmem
    have hsorted := unique_sizes_sorted fl
    rw [hu] at hsorted
    rcases List.mem_cons.mp hmem with h | h
    · simp [h]
    · simpa using List.rel_of_sorted_cons hsorted s h

theorem level_sizes_headD (hl : Nat) (fl : List Obs) :
    (level_sizes_of hl fl).headD 0 = (unique_sizes fl).headD 0 := by
  rw [level_sizes_of]
  rcases unique_sizes fl with _ | ⟨a, rest⟩
  · rfl
  · rfl

theorem level_sizes_ne_nil (hl : Nat) (fl : List Obs) (hfl : fl ≠ []) :
    level_sizes_of hl fl ≠ [] := by
  have hsz : fl.map Obs.size ≠ [] := by
    simpa using hfl
  have hmem : ∃ s, s ∈ fl.map Obs.size := by
    rcases hm : fl.map Obs.size with _ | ⟨a, rest⟩
    · exact absurd hm hsz
    · exact ⟨a, by simp⟩
  rcases hmem with ⟨s, hs⟩
  have : s ∈ unique_sizes fl := (unique_sizes_mem fl s).mpr hs
  rcases hu : unique_sizes fl with _ | ⟨a, rest⟩
  · rw [hu] at this
    exact absurd this (List.not_mem_nil s)
  · rw [level_sizes_of, hu]
    simp

/-! ### The heading component of the classification fold -/

theorem classifyStep_fst_valid (hl : Nat) (ls : List ℚ) (acc : List Heading × String)
    (o : Obs) (hacc : ∀ h ∈ acc.1, is_valid_heading h.text = true) :
    ∀ h ∈ (classifyStep hl ls acc o).1, is_valid_heading h.text = true := by
  intro h hm
  simp only [classifyStep] at hm
  split at hm
  · split at hm
    · exact hacc h hm
    · exact hacc h hm
  · split at hm
    · split at hm
      · rename_i hvalid
        rcases List.mem_append.mp hm with hold | hnew
        · exact hacc h hold
        · have : h = ⟨s!"H{resolvedLevel hl ls o}", clean_text o.text, o.page⟩ :=
            List.mem_singleton.mp hnew
          rw [this]
          exact hvalid
      · exact hacc h hm
    · exact hacc h hm

theorem foldl_classifyStep_fst_valid (hl : Nat) (ls : List ℚ) :
    ∀ (l : List Obs) (acc : List Heading × String),
      (∀ h ∈ acc.1, is_valid_heading h.text = true) →
      ∀ h ∈ (l.foldl (classifyStep hl ls) acc).1, is_valid_heading h.text = true := by
  intro l
  induction l with
  | nil => intro acc hacc; exact hacc
  | cons o l ih =>
    intro acc hacc
    simp only [List.foldl_cons]
    exact ih _ (classifyStep_fst_valid hl ls acc o hacc)

/-! ### The deduplication pass -/

theorem dedupHeadings_subset :
    ∀ (l : List Heading) (last : Option Heading) (h : Heading),
      h ∈ dedupHeadings l last → h ∈ l := by
  intro l
  induction l with
  | nil => intro last h hm; exact absurd hm (List.not_mem_nil h)
  | cons x l ih =>
    intro last h hm
    rw [dedupHeadings] at hm
    split at hm
    · exact List.mem_cons_of_mem x (ih _ h hm)
    · rcases List.mem_cons.mp hm with he | hm'
      · exact he ▸ List.mem_cons_self x l
      · exact List.mem_cons_of_mem x (ih _ h hm')

theorem destutter'_eq_dedupHeadings :
    ∀ (l : List Heading) (a : Heading),
      List.destutter' (· ≠ ·) a l = a :: dedupHeadings l (some a) := by
  intro l
  induction l with
  | nil => intro a; rfl
  | cons b l ih =>
    intro a
    rw [List.destutter', dedupHeadings]
    by_cases hab : a = b
    · subst hab
      rw [if_neg (by simp), if_pos rfl, ih a]
    · rw [if_pos hab, if_neg (by simp [Ne.symm hab]), ih b]

theorem dedupHeadings_eq_destutter (l : List Heading) :
    dedupHeadings l none = l.destutter (· ≠ ·) := by
  cases l with
  | nil => rfl
  | cons h hs =>
    rw [List.destutter, destutter'_eq_dedupHeadings, dedupHeadings, if_neg (by simp)]

/-! ### Flattening -/

theorem flatten_eq_nil_of_forall_nil :
    ∀ pd : List (List Obs), (∀ p ∈ pd, p = []) → pd.flatten = [] := by
  intro pd
  induction pd with
  | nil => intro _; rfl
  | cons p pd ih =>
    intro hall
    rw [List.flatten_cons, hall p (List.mem_cons_self p pd), List.nil_append]
    exact ih (fun q hq => hall q (List.mem_cons_of_mem p hq))

theorem process_segments_of_ne_nil (hl : Nat) (pd : List (List Obs))
    (h : pd.flatten ≠ []) :
    process_segments hl pd =
      ⟨clean_text (finalTitle (level_sizes_of hl pd.flatten) pd.flatten
          (pd.flatten.foldl (classifyStep hl (level_sizes_of hl pd.flatten)) ([], "")).2),
        dedupHeadings
          (pd.flatten.foldl (classifyStep hl (level_sizes_of hl pd.flatten)) ([], "")).1
          none⟩ := by
  simp only [process_segments, if_neg h]

/-! ### Normal form of cleaned text

`nfWord`/`nfSpace` recognise the strings produced by `clean_list`: whitespace
occurs only as single `' '` characters strictly between non-whitespace runs.
`noDup`/`noDupAfterSpace` are the same grammar but tolerate one trailing
space — the shape produced by `collapseWS` before the final strip. -/

mutual
/-- Accepts the tail of a clean string when the previous character was
non-whitespace (or at the very start). -/
def nfWord : List Char → Bool
  | [] => true
  | c :: cs => if isSpaceChar c then c == ' ' && nfSpace cs else nfWord cs

/-- Accepts the tail of a clean string right after a separator space: a
non-whitespace character must follow. -/
def nfSpace : List Char → Bool
  | [] => false
  | c :: cs => !isSpaceChar c && nfWord cs
end

/-- A fully clean string: empty, or starting with non-whitespace and clean. -/
def nf : List Char → Bool
  | [] => true
  | c :: cs => !isSpaceChar c && nfWord cs

mutual
/-- Like `nfWord` but a single trailing space is allowed. -/
def noDup : List Char → Bool
  | [] => true
  | c :: cs => if isSpaceChar c then c == ' ' && noDupAfterSpace cs else noDup cs

/-- Like `nfSpace` but the string may end right after the space. -/
def noDupAfterSpace : List Char → Bool
  | [] => true
  | c :: cs => !isSpaceChar c && noDup cs
end

theorem nfWord_cons_space {c : Char} (cs : List Char) (h : isSpaceChar c = true) :
    nfWord (c :: cs) = (c == ' ' && nfSpace cs) := by
  simp [nfWord, h]

theorem nfWord_cons_nonspace {c : Char} (cs : List Char) (h : isSpaceChar c = false) :
    nfWord (c :: cs) = nfWord cs := by
  simp [nfWord, h]

theorem nfSpace_cons {c : Char} (cs : List Char) :
    nfSpace (c :: cs) = (!isSpaceChar c && nfWord cs) := by
  simp [nfSpace]

theorem noDup_cons_space {c : Char} (cs : List Char) (h : isSpaceChar c = true) :
    noDup (c :: cs) = (c == ' ' && noDupAfterSpace cs) := by
  simp [noDup, h]

theorem noDup_cons_nonspace {c : Char} (cs : List Char) (h : isSpaceChar c = false) :
    noDup (c :: cs) = noDup cs := by
  simp [noDup, h]

theorem noDupAfterSpace_cons {c : Char} (cs : List Char) :
    noDupAfterSpace (c :: cs) = (!isSpaceChar c && noDup cs) := by
  simp [noDupAfterSpace]

theorem nf_cons {c : Char} (cs : List Char) :
    nf (c :: cs) = (!isSpaceChar c && nfWord cs) := by
  simp [nf]

theorem collapseWS_cons_space {c : Char} (inRun : Bool) (cs : List Char)
    (h : isSpaceChar c = true) :
    collapseWS inRun (c :: cs) =
      if inRun then collapseWS true cs else ' ' :: collapseWS true cs := by
  simp [collapseWS, h]

theorem collapseWS_cons_nonspace {c : Char} (inRun : Bool) (cs : List Char)
    (h : isSpaceChar c = false) :
    collapseWS inRun (c :: cs) = c :: collapseWS false cs := by
  simp [collapseWS, h]

theorem dropTrailingWS_cons (c : Char) (cs : List Char) :
    dropTrailingWS (c :: cs) =
      if (dropTrailingWS cs).isEmpty then (if isSpaceChar c then [] else [c])
      else c :: dropTrailingWS cs := by
  rw [dropTrailingWS]

theorem isSpaceChar_space : isSpaceChar ' ' = true := by decide

theorem collapseWS_noDup :
    ∀ l : List Char,
      noDup (collapseWS false l) = true ∧ noDupAfterSpace (collapseWS true l) = true := by
  intro l
  induction l with
  | nil => exact ⟨rfl, rfl⟩
  | cons c cs ih =>
    cases hsp : isSpaceChar c with
    | true =>
      refine ⟨?_, ?_⟩
      · rw [collapseWS_cons_space false cs hsp, if_neg (by simp),
          noDup_cons_space _ isSpaceChar_space]
        simp [ih.2]
      · rw [collapseWS_cons_space true cs hsp, if_pos rfl]
        exact ih.2
    | false =>
      refine ⟨?_, ?_⟩
      · rw [collapseWS_cons_nonspace false cs hsp, noDup_cons_nonspace _ hsp]
        exact ih.1
      · rw [collapseWS_cons_nonspace true cs hsp, noDupAfterSpace_cons]
        simp [hsp, ih.1]

theorem dropWhile_of_noDup (l : List Char) (h : noDup l = true) :
    noDup (l.dropWhile isSpaceChar) = true ∧
      (∀ c, (l.dropWhile isSpaceChar).head? = some c → isSpaceChar c = false) := by
  cases l with
  | nil => exact ⟨rfl, by intro c hc; simp at hc⟩
  | cons c cs =>
    cases hsp : isSpaceChar c with
    | false =>
      rw [List.dropWhile_cons_of_neg (by simp [hsp])]
      refine ⟨h, ?_⟩
      intro d hd
      simp only [List.head?_cons, Option.some.injEq] at hd
      rw [← hd]
      exact hsp
    | true =>
      have hns : noDupAfterSpace cs = true := by
        rw [noDup_cons_space _ hsp, Bool.and_eq_true] at h
        exact h.2
      rw [List.dropWhile_cons_of_pos (by simp [hsp])]
      cases cs with
      | nil => exact ⟨rfl, by intro d hd; simp at hd⟩
      | cons d ds =>
        rw [noDupAfterSpace_cons, Bool.and_eq_true] at hns
        have hd : isSpaceChar d = false := by
          simpa using hns.1
        rw [List.dropWhile_cons_of_neg (by simp [hd])]
        refine ⟨?_, ?_⟩
        · rw [noDup_cons_nonspace _ hd]
          exact hns.2
        · intro e he
          simp only [List.head?_cons, Option.some.injEq] at he
          rw [← he]
          exact hd

theorem dropTrailingWS_of_noDup :
    ∀ l : List Char,
      (noDup l = true → nfWord (dropTrailingWS l) = true) ∧
        (noDupAfterSpace l = true →
          nfSpace (dropTrailingWS l) = true ∨ dropTrailingWS l = []) := by
  intro l
  induction l with
  | nil => exact ⟨fun _ => rfl, fun _ => Or.inr rfl⟩
  | cons c cs ih =>
    constructor
    · intro h
      cases hsp : isSpaceChar c with
      | true =>
        have hsp' : c = ' ' := by
          rw [noDup_cons_space _ hsp, Bool.and_eq_true] at h
          simpa using h.1
        have hns : noDupAfterSpace cs = true := by
          rw [noDup_cons_space _ hsp, Bool.and_eq_true] at h
          exact h.2
        rcases ih.2 hns with hsp2 | hnil
        · have hne : ¬(dropTrailingWS cs).isEmpty = true := by
            cases hdt : dropTrailingWS cs with
            | nil => rw [hdt] at hsp2; exact absurd hsp2 (by simp [nfSpace])
            | cons x xs => simp
          rw [dropTrailingWS_cons, if_neg hne, nfWord_cons_space _ hsp]
          simp [hsp', hsp2]
        · rw [dropTrailingWS_cons, hnil]
          simp [hsp, nfWord]
      | false =>
        have hnd : noDup cs = true := by
          rw [noDup_cons_nonspace _ hsp] at h
          exact h
        by_cases hdt : (dropTrailingWS cs).isEmpty = true
        · rw [dropTrailingWS_cons, if_pos hdt, if_neg (by simp [hsp]),
            nfWord_cons_nonspace _ hsp]
          rfl
        · rw [dropTrailingWS_cons, if_neg hdt, nfWord_cons_nonspace _ hsp]
          exact ih.1 hnd
    · intro h
      cases hsp : isSpaceChar c with
      | true =>
        rw [noDupAfterSpace_cons, hsp, Bool.and_eq_true] at h
        exact absurd h.1 (by simp)
      | false =>
        have hnd : noDup cs = true := by
          rw [noDupAfterSpace_cons, Bool.and_eq_true] at h
          exact h.2
        left
        by_cases hdt : (dropTrailingWS cs).isEmpty = true
        · rw [dropTrailingWS_cons, if_pos hdt, if_neg (by simp [hsp]), nfSpace_cons]
          simp [hsp, nfWord]
        · rw [dropTrailingWS_cons, if_neg hdt, nfSpace_cons]
          simp only [hsp, Bool.not_false, Bool.true_and]
          exact ih.1 hnd

theorem nf_of_nfWord_head (x : List Char) (hw : nfWord x = true)
    (hh : ∀ c, x.head? = some c → isSpaceChar c = false) : nf x = true := by
  cases x with
  | nil => rfl
  | cons c cs =>
    have hc : isSpaceChar c = false := hh c rfl
    rw [nf_cons, hc]
    rw [nfWord_cons_nonspace _ hc] at hw
    simp [hw]

theorem nf_clean_list (l : List Char) : nf (clean_list l) = true := by
  have h1 := (collapseWS_noDup l).1
  have h2 := dropWhile_of_noDup _ h1
  have h3 := (dropTrailingWS_of_noDup ((collapseWS false l).dropWhile isSpaceChar)).1 h2.1
  rw [clean_list]
  rcases hm : (collapseWS false l).dropWhile isSpaceChar with _ | ⟨c, cs⟩
  · simp [dropTrailingWS, nf]
  · have hc : isSpaceChar c = false := h2.2 c (by rw [hm]; rfl)
    rw [hm] at h3
    rw [dropTrailingWS_cons] at h3 ⊢
    by_cases hdt : (dropTrailingWS cs).isEmpty = true
    · rw [if_pos hdt, if_neg (by simp [hc])] at h3 ⊢
      exact nf_of_nfWord_head _ h3 (by intro d hd; simp at hd; rw [← hd]; exact hc)
    · rw [if_neg hdt] at h3 ⊢
      exact nf_of_nfWord_head _ h3 (by intro d hd; simp at hd; rw [← hd]; exact hc)

theorem nf_nfWord (l : List Char) (h : nf l = true) : nfWord l = true := by
  cases l with
  | nil => rfl
  | cons c cs =>
    rw [nf_cons, Bool.and_eq_true] at h
    have hc : isSpaceChar c = false := by
      simpa using h.1
    rw [nfWord_cons_nonspace _ hc]
    exact h.2

theorem collapseWS_of_nf :
    ∀ l : List Char,
      (nfWord l = true → collapseWS false l = l) ∧
        (nfSpace l = true → collapseWS true l = l) := by
  intro l
  induction l with
  | nil => exact ⟨fun _ => rfl, fun h => absurd h (by simp [nfSpace])⟩
  | cons c cs ih =>
    constructor
    · intro h
      cases hsp : isSpaceChar c with
      | true =>
        rw [nfWord_cons_space _ hsp, Bool.and_eq_true] at h
        have hc : c = ' ' := by simpa using h.1
        rw [collapseWS_cons_space false cs hsp, if_neg (by simp), ih.2 h.2, hc]
      | false =>
        rw [nfWord_cons_nonspace _ hsp] at h
        rw [collapseWS_cons_nonspace false cs hsp, ih.1 h]
    · intro h
      rw [nfSpace_cons, Bool.and_eq_true] at h
      have hc : isSpaceChar c = false := by simpa using h.1
      rw [collapseWS_cons_nonspace true cs hc, ih.1 h.2]

theorem dropWhile_of_nf (l : List Char) (h : nf l = true) :
    l.dropWhile isSpaceChar = l := by
  cases l with
  | nil => rfl
  | cons c cs =>
    rw [nf_cons, Bool.and_eq_true] at h
    have hc : isSpaceChar c = false := by simpa using h.1
    exact List.dropWhile_cons_of_neg (by simp [hc])

theorem dropTrailingWS_of_nf :
    ∀ l : List Char,
      (nfWord l = true → dropTrailingWS l = l) ∧
        (nfSpace l = true → dropTrailingWS l = l ∧ l ≠ []) := by
  intro l
  induction l with
  | nil => exact ⟨fun _ => rfl, fun h => absurd h (by simp [nfSpace])⟩
  | cons c cs ih =>
    constructor
    · intro h
      cases hsp : isSpaceChar c with
      | true =>
        rw [nfWord_cons_space _ hsp, Bool.and_eq_true] at h
        rcases ih.2 h.2 with ⟨hdt, hne⟩
        have hie : cs.isEmpty = false := by
          cases cs with
          | nil => exact absurd rfl hne
          | cons d ds => rfl
        rw [dropTrailingWS_cons, hdt, if_neg (by simp [hie])]
      | false =>
        rw [nfWord_cons_nonspace _ hsp] at h
        rw [dropTrailingWS_cons, ih.1 h]
        cases cs with
        | nil => simp [hsp]
        | cons d ds => rfl
    · intro h
      rw [nfSpace_cons, Bool.and_eq_true] at h
      have hc : isSpaceChar c = false := by simpa using h.1
      refine ⟨?_, by simp⟩
      rw [dropTrailingWS_cons, ih.1 h.2]
      cases cs with
      | nil => simp [hc]
      | cons d ds => rfl

theorem clean_list_of_nf (l : List Char) (h : nf l = true) : clean_list l = l := by
  rw [clean_list, (collapseWS_of_nf l).1 (nf_nfWord l h), dropWhile_of_nf l h,
    (dropTrailingWS_of_nf l).1 (nf_nfWord l h)]

theorem clean_list_idem (l : List Char) : clean_list (clean_list l) = clean_list l :=
  clean_list_of_nf _ (nf_clean_list l)

/-! ### The claims -/

/-- C1: the resolved heading level equals the numeric-prefix level when that
lies in `[1, heading_levels]` and otherwise the index of the font size in the
level-size table (`-1` when absent); a line `"2.1 Background"` whose size maps
to size-level 3 resolves to level 2 when `heading_levels = 3`. -/
theorem C1_resolved_level :
    (∀ (hl : Nat) (ls : List ℚ) (o : Obs),
        resolvedLevel hl ls o =
          if 1 ≤ headingNumLevel o.text ∧ headingNumLevel o.text ≤ hl then
            (headingNumLevel o.text : Int)
          else size_to_level o.size ls) ∧
    (∀ (ls : List ℚ) (size : ℚ),
        size_to_level size ls = if size ∈ ls then (ls.indexOf size : Int) else -1) ∧
    headingNumLevel "2.1 Background" = 2 ∧
    size_to_level 10 [20, 16, 12, 10] = 3 ∧
    resolvedLevel 3 [20, 16, 12, 10] ⟨"2.1 Background", 1, 10, false⟩ = 2 ∧
    (process_segments 3 [[⟨"Title", 1, 20, true⟩, ⟨"Alpha", 1, 16, false⟩,
        ⟨"Beta", 1, 12, false⟩, ⟨"2.1 Background", 1, 10, false⟩]]).outline =
      [⟨"H1", "Alpha", 1⟩, ⟨"H2", "Beta", 1⟩, ⟨"H2", "2.1 Background", 1⟩] := by
  exact ⟨fun hl ls o => rfl, size_to_level_eq_indexOf, by decide, by decide,
    by decide, by decide⟩

/-- C2 counterexample: on the two-observation input below, the first
observation accepted by the title rule has empty text, yet the title
candidate after the pass is the text of the *later* accepted observation, so
the first accepted candidate did not win. -/
theorem C2_first_accepted_counterexample :
    titleAcceptB 3 [20] ⟨"", 1, 20, true⟩ = true ∧
    ([⟨"", 1, 20, true⟩, ⟨"T", 1, 20, true⟩] : List Obs).find? (titleAcceptB 3 [20])
      = some ⟨"", 1, 20, true⟩ ∧
    (([⟨"", 1, 20, true⟩, ⟨"T", 1, 20, true⟩] : List Obs).foldl
        (classifyStep 3 [20]) ([], "")).2 = "T" ∧
    Obs.text ⟨"", 1, 20, true⟩ ≠ "T" := by
  refine ⟨by decide, by decide, by decide, by decide⟩

/-- C2 (amended): a level-0 line is accepted exactly when its page is at most
1 and it is bold, fully upper-case, or shorter than 15 words; the title
candidate after the pass is the text of the first accepted observation whose
text is nonempty (empty if there is none) — accepted observations with empty
text leave the candidate unset, so only when every accepted observation has
nonempty text does the first accepted one win. -/
theorem C2_title_candidate :
    (∀ (hl : Nat) (ls : List ℚ) (o : Obs),
        titleAcceptB hl ls o = true ↔
          (resolvedLevel hl ls o = 0 ∧ o.page ≤ 1 ∧
            (o.bold ∨ pyIsUpper o.text ∨ wordCount o.text < 15))) ∧
    (∀ (hl : Nat) (ls : List ℚ) (l : List Obs),
        (l.foldl (classifyStep hl ls) ([], "")).2 =
          match l.find? (fun o => titleAcceptB hl ls o && !(o.text == "")) with
          | some o => o.text
          | none => "") := by
  refine ⟨titleAcceptB_iff, ?_⟩
  intro hl ls l
  rw [foldl_classifyStep_snd, foldl_candStep_empty]

/-- C3: the level-size table is strictly decreasing, has length at most
`heading_levels + 1`, contains only observed sizes, and on sizes
`[20, 20, 16, 12, 12]` with `heading_levels = 3` equals `[20, 16, 12]`. -/
theorem C3_level_size_table :
    (∀ (hl : Nat) (fl : List Obs),
        List.Pairwise (· > ·) (level_sizes_of hl fl) ∧
          (level_sizes_of hl fl).length ≤ hl + 1) ∧
    (∀ (hl : Nat) (fl : List Obs) (s : ℚ),
        s ∈ level_sizes_of hl fl → s ∈ fl.map Obs.size) ∧
    level_sizes_of 3 [⟨"a", 1, 20, false⟩, ⟨"b", 1, 20, false⟩, ⟨"c", 1, 16, false⟩,
        ⟨"d", 1, 12, false⟩, ⟨"e", 2, 12, false⟩] = [20, 16, 12] := by
  exact ⟨fun hl fl => ⟨level_sizes_pairwise_gt hl fl, level_sizes_length_le hl fl⟩,
    level_sizes_subset_sizes, by decide⟩

/-- C3 witness: the membership part of `C3_level_size_table` applied to a
concrete table entry. -/
theorem C3_level_size_table_witness :
    (20 : ℚ) ∈ ([⟨"t", 1, 20, false⟩] : List Obs).map Obs.size :=
  C3_level_size_table.2.1 3 [⟨"t", 1, 20, false⟩] 20 (by decide)

/-- C4: every heading in the final outline passes the validity filter, and
the filter rejects the date-like string `"18 JUNE 2013"` and the all-digit
string `"42"`, so neither can appear in the output heading sequence. -/
theorem C4_heading_validity :
    (∀ (hl : Nat) (pd : List (List Obs)) (h : Heading),
        h ∈ (process_segments hl pd).outline → is_valid_heading h.text = true) ∧
    is_valid_heading "18 JUNE 2013" = false ∧
    is_valid_heading "42" = false ∧
    dateLike "18 JUNE 2013" = true := by
  refine ⟨?_, by decide, by decide, by decide⟩
  intro hl pd h hmem
  by_cases hfl : pd.flatten = []
  · have hempty : process_segments hl pd = ⟨"", []⟩ := by
      simp only [process_segments, if_pos hfl]
    rw [hempty] at hmem
    exact absurd hmem (List.not_mem_nil h)
  · rw [process_segments_of_ne_nil hl pd hfl] at hmem
    have h2 := dedupHeadings_subset _ none h hmem
    exact foldl_classifyStep_fst_valid hl _ pd.flatten ([], "")
      (by intro x hx; exact absurd hx (List.not_mem_nil x)) h h2

/-- C4 witness: `C4_heading_validity` applied to a concrete heading of a
concrete run. -/
theorem C4_heading_validity_witness :
    is_valid_heading (Heading.text ⟨"H1", "Introduction", 1⟩) = true :=
  C4_heading_validity.1 3 [[⟨"Big Title", 1, 20, true⟩, ⟨"Introduction", 1, 16, false⟩]]
    ⟨"H1", "Introduction", 1⟩ (by decide)

/-- C5: when no observation is accepted as title candidate during the
classification pass, the returned title is the cleaned text of the first
observation whose font size equals the largest table size (index 0), and the
empty string when no observation has that size. -/
theorem C5_title_fallback (hl : Nat) (pd : List (List Obs))
    (hnone : ∀ o ∈ pd.flatten, titleAcceptB hl (level_sizes_of hl pd.flatten) o = false) :
    (process_segments hl pd).title =
      clean_text
        (match pd.flatten.find?
            (fun o => o.size == (level_sizes_of hl pd.flatten).headD 0) with
          | some o => o.text
          | none => "") := by
  by_cases hfl : pd.flatten = []
  · have hempty : process_segments hl pd = ⟨"", []⟩ := by
      simp only [process_segments, if_pos hfl]
    rw [hempty, hfl]
    rfl
  · have hcand :
        (pd.flatten.foldl (classifyStep hl (level_sizes_of hl pd.flatten)) ([], "")).2
          = "" := by
      rw [foldl_classifyStep_snd, foldl_candStep_empty]
      have hfind :
          pd.flatten.find?
              (fun o => titleAcceptB hl (level_sizes_of hl pd.flatten) o
                && !(o.text == "")) = none := by
        rw [List.find?_eq_none]
        intro x hx
        simp [hnone x hx]
      rw [hfind]
    rw [process_segments_of_ne_nil hl pd hfl]
    dsimp only
    rw [hcand, finalTitle, if_pos rfl]

/-- C5 witness: `C5_title_fallback` applied to a run whose only observation
is on page 2 (so never accepted as a title candidate). -/
theorem C5_title_fallback_witness :
    (process_segments 3 [[⟨"Only Heading", 2, 20, false⟩]]).title =
      clean_text
        (match ([[⟨"Only Heading", 2, 20, false⟩]] : List (List Obs)).flatten.find?
            (fun o => o.size ==
              (level_sizes_of 3
                ([[⟨"Only Heading", 2, 20, false⟩]] : List (List Obs)).flatten).headD 0) with
          | some o => o.text
          | none => "") :=
  C5_title_fallback 3 [[⟨"Only Heading", 2, 20, false⟩]] (by decide)

/-- C6: the deduplication pass is exactly adjacent-duplicate removal
(`List.destutter (· ≠ ·)`): a heading equal to the previously kept heading is
dropped, and non-adjacent duplicates are preserved, as the two concrete runs
show. -/
theorem C6_dedup_destutter :
    (∀ l : List Heading, dedupHeadings l none = l.destutter (· ≠ ·)) ∧
    dedupHeadings [⟨"H1", "Introduction", 3⟩, ⟨"H1", "Introduction", 3⟩] none
      = [⟨"H1", "Introduction", 3⟩] ∧
    dedupHeadings [⟨"H1", "Introduction", 3⟩, ⟨"H2", "Methods", 4⟩,
        ⟨"H1", "Introduction", 3⟩] none
      = [⟨"H1", "Introduction", 3⟩, ⟨"H2", "Methods", 4⟩, ⟨"H1", "Introduction", 3⟩] := by
  exact ⟨dedupHeadings_eq_destutter, by decide, by decide⟩

/-- C7: an empty observation sequence — no pages at all, or only pages with
empty observation lists — yields `{title := "", outline := []}`. -/
theorem C7_empty_input :
    (∀ hl : Nat, process_segments hl [] = ⟨"", []⟩) ∧
    (∀ (hl : Nat) (pd : List (List Obs)), (∀ p ∈ pd, p = []) →
        process_segments hl pd = ⟨"", []⟩) := by
  constructor
  · intro hl
    rfl
  · intro hl pd hall
    have h := flatten_eq_nil_of_forall_nil pd hall
    simp only [process_segments, if_pos h]

/-- C7 witness: `C7_empty_input` applied to two empty pages. -/
theorem C7_empty_input_witness :
    process_segments 3 ([[], []] : List (List Obs)) = ⟨"", []⟩ :=
  C7_empty_input.2 3 [[], []] (by decide)

/-- C8: whitespace cleaning is idempotent, and it sends
`"Intro   duction\n"` to `"Intro duction"`. -/
theorem C8_clean_idempotent :
    (∀ s : String, clean_text (clean_text s) = clean_text s) ∧
    clean_text "Intro   duction\n" = "Intro duction" := by
  constructor
  · intro s
    rw [clean_text, clean_text]
    exact congrArg String.mk (clean_list_idem s.data)
  · decide

/-- C9: the classifier is a total function — every input yields an outline
record — and malformed observations such as negative font sizes flow through
size ranking and level assignment with their literal values. -/
theorem C9_classifier_total :
    (∀ (hl : Nat) (pd : List (List Obs)),
        ∃ t ol, process_segments hl pd = ⟨t, ol⟩) ∧
    process_segments 3 [[⟨"Heading", 1, -5, false⟩, ⟨"x", 2, -7, true⟩]]
      = ⟨"Heading", [⟨"H1", "x", 2⟩]⟩ := by
  exact ⟨fun hl pd =>
    ⟨(process_segments hl pd).title, (process_segments hl pd).outline, rfl⟩, by decide⟩

/-- C10: for a non-empty flattened sequence the level-size table is non-empty,
its head is the maximum observed size, some observation carries exactly that
size, and hence the fallback search always finds an observation — the
empty-string arm of the fallback is unreachable. -/
theorem C10_fallback_nonempty (hl : Nat) (pd : List (List Obs))
    (hfl : pd.flatten ≠ []) :
    level_sizes_of hl pd.flatten ≠ [] ∧
    (∀ o ∈ pd.flatten, o.size ≤ (level_sizes_of hl pd.flatten).headD 0) ∧
    (∃ o ∈ pd.flatten, o.size = (level_sizes_of hl pd.flatten).headD 0) ∧
    (pd.flatten.find?
        (fun o => o.size == (level_sizes_of hl pd.flatten).headD 0)).isSome = true := by
  have hne := level_sizes_ne_nil hl pd.flatten hfl
  have hmax : ∀ o ∈ pd.flatten, o.size ≤ (level_sizes_of hl pd.flatten).headD 0 := by
    intro o ho
    rw [level_sizes_headD]
    exact unique_sizes_head_max pd.flatten o.size (List.mem_map_of_mem Obs.size ho)
  have hex : ∃ o ∈ pd.flatten, o.size = (level_sizes_of hl pd.flatten).headD 0 := by
    rcases hu : unique_sizes pd.flatten with _ | ⟨a, rest⟩
    · exfalso
      apply hne
      rw [level_sizes_of, hu]
      rfl
    · have hmem : a ∈ unique_sizes pd.flatten := by
        rw [hu]
        exact List.mem_cons_self a rest
      rcases List.mem_map.mp ((unique_sizes_mem _ a).mp hmem) with ⟨o, ho, hsz⟩
      refine ⟨o, ho, ?_⟩
      rw [level_sizes_headD, hu]
      simpa using hsz
  refine ⟨hne, hmax, hex, ?_⟩
  rcases hex with ⟨o, ho, hsz⟩
  cases hfind : pd.flatten.find?
      (fun o => o.size == (level_sizes_of hl pd.flatten).headD 0) with
  | some x => rfl
  | none =>
    rw [List.find?_eq_none] at hfind
    exact absurd (beq_iff_eq.mpr hsz) (hfind o ho)

/-- C10 witness: `C10_fallback_nonempty` applied to a one-observation run. -/
theorem C10_fallback_nonempty_witness :
    level_sizes_of 3 ([[⟨"A", 1, 20, true⟩]] : List (List Obs)).flatten ≠ [] ∧
    (∀ o ∈ ([[⟨"A", 1, 20, true⟩]] : List (List Obs)).flatten,
      o.size ≤ (level_sizes_of 3
        ([[⟨"A", 1, 20, true⟩]] : List (List Obs)).flatten).headD 0) ∧
    (∃ o ∈ ([[⟨"A", 1, 20, true⟩]] : List (List Obs)).flatten,
      o.size = (level_sizes_of 3
        ([[⟨"A", 1, 20, true⟩]] : List (List Obs)).flatten).headD 0) ∧
    (([[⟨"A", 1, 20, true⟩]] : List (List Obs)).flatten.find?
        (fun o => o.size == (level_sizes_of 3
          ([[⟨"A", 1, 20, true⟩]] : List (List Obs)).flatten).headD 0)).isSome = true :=
  C10_fallback_nonempty 3 [[⟨"A", 1, 20, true⟩]] (by decide)
